import Mathlib

/-!
Verification development for the mustache-template processing core of the
vscode-json-schema-validator extension.

The definitions below are shallow embeddings of the TypeScript sources:
  * src/src/mustacheProcessor.ts  (transducer, post-processor, offset mapper)
  * the validation module (error filtering, severity classification)
Text is modelled as `List Char`; a JS string index is the position in that
list (the sources only ever deal with such offsets).  JS regular expressions
used by the sources are simple enough that their backtracking behaviour is
forced, and each one is translated into an explicit scanner with the same
match semantics; the translation is justified next to each definition.
-/

set_option maxRecDepth 10000

namespace JSV

/-- Segment kind of a position mapping, mirroring the union type
`'mustache' | 'text'` of the `type` field in mustacheProcessor.ts. -/
inductive SegType where
  | text
  | mustache
deriving DecidableEq

/-- Mirror of `interface PositionMapping` in mustacheProcessor.ts.
The optional field `replacement?: string` is present exactly on segments the
code constructs with `type: 'mustache'`; text segments carry `[]` here for
the absent field (the only read of `replacement` in the sources is guarded
by a `type === 'mustache'` check, so this encoding is observationally
faithful). -/
structure PositionMapping where
  originalStart : Nat
  originalEnd : Nat
  cleanedStart : Nat
  cleanedEnd : Nat
  type : SegType
  replacement : List Char
deriving DecidableEq

/-- Mirror of `interface MustacheProcessResult` in mustacheProcessor.ts. -/
structure MustacheProcessResult where
  cleanedText : List Char
  hasMustache : Bool
  mappings : List PositionMapping
deriving DecidableEq

/-- JS `\s` (the ECMAScript WhiteSpace and LineTerminator characters, the
same set `String.prototype.trim` strips): the six ASCII whitespace
characters together with NBSP, the Ogham space mark, the U+2000 to U+200A
spaces, the line and paragraph separators, the narrow and medium
mathematical spaces, the ideographic space and the zero-width no-break
space. -/
def isSpaceChar (c : Char) : Bool :=
  c = ' ' || c = '\t' || c = '\n' || c = '\r' || c = '\x0B' || c = '\x0C' ||
  c = '\u00A0' || c = '\u1680' || ('\u2000' ≤ c && c ≤ '\u200A') ||
  c = '\u2028' || c = '\u2029' || c = '\u202F' || c = '\u205F' ||
  c = '\u3000' || c = '\uFEFF'

/-- JS `String.prototype.trim`: strip whitespace from both ends. -/
def trimChars (s : List Char) : List Char :=
  ((s.dropWhile isSpaceChar).reverse.dropWhile isSpaceChar).reverse

/-- Accumulator loop for `lastIndexOf`: `i` is the index of the head of the
remaining list, `acc` the last index at which `c` was seen (or -1). -/
def lastIndexOfAux (c : Char) : List Char → Nat → Int → Int
  | [], _, acc => acc
  | x :: xs, i, acc => lastIndexOfAux c xs (i + 1) (if x = c then (i : Int) else acc)

/-- JS `String.prototype.lastIndexOf` for a single character: the largest
index holding `c`, or -1 when `c` does not occur. -/
def lastIndexOf (c : Char) (s : List Char) : Int :=
  lastIndexOfAux c s 0 (-1)

/-- Translation of `generateSampleValue(mustacheExpr, context)` from
mustacheProcessor.ts.  `context.slice(Math.max(0, context.length - 200))` is
`context.drop (context.length - 200)` (truncated subtraction supplies the
`max`), `(afterDelimiter.match(/"/g) || []).length` is `List.count '"'`,
and `Math.max` of the two `lastIndexOf` results (with -1 for absence) is
`max` on `Int`. -/
def generateSampleValue (mustacheExpr : List Char) (context : List Char) : List Char :=
  let expr := trimChars mustacheExpr
  -- Block helpers (conditionals, loops, etc.) - always removed
  if expr.head? = some '#' ∨ expr.head? = some '^' then []
  else if expr.head? = some '/' then []
  else if expr.head? = some '!' then []
  else if expr.head? = some '>' then []
  else
    let beforeContext := context.drop (context.length - 200)
    let lastColonIndex := lastIndexOf ':' beforeContext
    let lastBracketIndex := lastIndexOf '[' beforeContext
    let delimiterIndex := max lastColonIndex lastBracketIndex
    if 0 ≤ delimiterIndex then
      let afterDelimiter := beforeContext.drop (delimiterIndex.toNat + 1)
      let quotesAfter := afterDelimiter.count '"'
      if quotesAfter % 2 = 1 then "sampleValue".toList
      else "\"sampleValue\"".toList
    else
      "\"sampleValue\"".toList

/-- The sigil class `[#^/!>]` appearing in both regular expressions of
mustacheProcessor.ts. -/
def isSigil (c : Char) : Bool :=
  c = '#' || c = '^' || c = '/' || c = '!' || c = '>'

/-- The optional sigil `[#^/!>]?` right after the opening braces: consume
one sigil character when present.  (If taking the sigil leads to failure,
dropping it cannot help: both parses stop the `[^\x7d]*` run at the same
first closing brace, so the greedy parse is the only relevant one.) -/
def sigilSplit : List Char → List Char × List Char
  | [] => ([], [])
  | c :: cs => if isSigil c then ([c], cs) else ([], c :: cs)

/-- Attempt of the first regex alternative `\{\{\{([^\x7d]+)\}\}\}` at the
start of `s`; on success returns the match length and the captured
expression.  Since `[^\x7d]+` cannot match a closing brace, its greedy run
necessarily stops at the first closing brace and no backtracking is
possible: the match succeeds iff exactly three closing braces follow that
run. -/
def tryTriple (s : List Char) : Option (Nat × List Char) :=
  match s with
  | c1 :: c2 :: c3 :: rest =>
    if c1 = '{' ∧ c2 = '{' ∧ c3 = '{' then
      let expr := rest.takeWhile (fun c => c ≠ '}')
      if expr = [] then none
      else
        match rest.drop expr.length with
        | d1 :: d2 :: d3 :: _ =>
          if d1 = '}' ∧ d2 = '}' ∧ d3 = '}' then some (3 + expr.length + 3, expr)
          else none
        | _ => none
    else none
  | _ => none

/-- Attempt of the second regex alternative
`\{\{([#^/!>]?)([^\x7d]*)\}\}` at the start of `s`; on success returns the
match length, the captured sigil (empty or one character) and the captured
expression.  As in `tryTriple`, the greedy `[^\x7d]*` run is forced, so the
match succeeds iff two closing braces follow it. -/
def tryDouble (s : List Char) : Option (Nat × List Char × List Char) :=
  match s with
  | c1 :: c2 :: rest =>
    if c1 = '{' ∧ c2 = '{' then
      let p := sigilSplit rest
      let expr := p.2.takeWhile (fun c => c ≠ '}')
      match p.2.drop expr.length with
      | d1 :: d2 :: _ =>
        if d1 = '}' ∧ d2 = '}' then some (2 + p.1.length + expr.length + 2, p.1, expr)
        else none
      | _ => none
    else none
  | _ => none

/-- Attempt of the detection regex `\{\{[#^/!>]?[^\x7d]*\}\}` of
`hasMustacheSyntax` at the start of `s` (same pattern as the second
alternative of the processing regex, without capture groups). -/
def trySimple (s : List Char) : Bool :=
  match s with
  | c1 :: c2 :: rest =>
    if c1 = '{' ∧ c2 = '{' then
      let p := sigilSplit rest
      let expr := p.2.takeWhile (fun c => c ≠ '}')
      match p.2.drop expr.length with
      | d1 :: d2 :: _ => if d1 = '}' ∧ d2 = '}' then true else false
      | _ => false
    else false
  | _ => false

/-- Translation of `hasMustacheSyntax(text)` from mustacheProcessor.ts:
`/\{\{[#^/!>]?[^\x7d]*\}\}/.test(text)` holds iff the pattern matches at
some position of the text. -/
def hasMustacheSyntax : List Char → Bool
  | [] => false
  | c :: rest => trySimple (c :: rest) || hasMustacheSyntax rest

/-- One step of `mustacheRegex.exec` from position `i`: the leftmost match
of `/\{\{\{([^\x7d]+)\}\}\}|\{\{([#^/!>]?)([^\x7d]*)\}\}/` in the given
suffix (whose head sits at absolute index `i`), trying the triple-brace
alternative before the double-brace one at each position, exactly as the JS
engine does.  Returns the absolute match start, the match length, the
captured sigil and the captured expression. -/
def scan : List Char → Nat → Option (Nat × Nat × List Char × List Char)
  | [], _ => none
  | c :: rest, i =>
    match tryTriple (c :: rest) with
    | some (len, expr) => some (i, len, [], expr)
    | none =>
      match tryDouble (c :: rest) with
      | some (len, pre, expr) => some (i, len, pre, expr)
      | none => scan rest (i + 1)

/-- One global-replace pass of
`text.replace(/,(\s*)CLOSE/g, '$1CLOSE')` from
`removeInvalidTrailingCommas`: scanning left to right, every occurrence of
a comma followed by (greedily matched) whitespace and the closing character
drops the comma; on a failed attempt the scanner advances one character, on
a match it resumes after the match.  `fuel` is an upper bound on the number
of scanner steps; every step consumes at least one character, so any fuel
exceeding the length of the list makes the value independent of it. -/
def replaceCommaClose (close : Char) : Nat → List Char → List Char
  | 0, s => s
  | _ + 1, [] => []
  | fuel + 1, c :: rest =>
    if c = ',' then
      match rest.dropWhile isSpaceChar with
      | d :: rest3 =>
        if d = close then
          rest.takeWhile isSpaceChar ++ close :: replaceCommaClose close fuel rest3
        else c :: replaceCommaClose close fuel rest
      | [] => c :: replaceCommaClose close fuel rest
    else c :: replaceCommaClose close fuel rest

/-- Translation of `removeInvalidTrailingCommas(text)` from
mustacheProcessor.ts: first rewrite `,(\s*)\]` to `$1]` everywhere, then
rewrite `,(\s*)\}` to `$1\x7d` everywhere. -/
def removeInvalidTrailingCommas (text : List Char) : List Char :=
  let t1 := replaceCommaClose ']' (text.length + 1) text
  replaceCommaClose '}' (t1.length + 1) t1

/-- Decision procedure for "some comma-whitespace-close occurrence exists",
i.e. for whether a `replaceCommaClose` pass can rewrite anything. -/
def hasCommaClose (close : Char) : List Char → Bool
  | [] => false
  | c :: rest =>
    if c = ',' then
      match rest.dropWhile isSpaceChar with
      | d :: _ => if d = close then true else hasCommaClose close rest
      | [] => hasCommaClose close rest
    else hasCommaClose close rest

/-- The body of the `while ((match = mustacheRegex.exec(text)) !== null)`
loop of `processMustacheTemplate`, from state `(lastIndex, cleanedOffset)`
onward.  Returns the cleaned text produced from `lastIndex` on (before the
trailing-comma post-processing), the mappings pushed from this state on,
and whether a mustache match was found.  `fuel` bounds the number of loop
iterations; each iteration advances `lastIndex` by at least one, so
`text.length + 1` steps always suffice. -/
def processLoop (text : List Char) : Nat → Nat → Nat → List Char × List PositionMapping × Bool
  | 0, _, _ => ([], [], false)
  | fuel + 1, lastIndex, cleanedOffset =>
    match scan (text.drop lastIndex) lastIndex with
    | none =>
      -- add remaining text after the last mustache expression
      if lastIndex < text.length then
        let textAfter := text.drop lastIndex
        (textAfter,
         [⟨lastIndex, text.length, cleanedOffset, cleanedOffset + textAfter.length,
           SegType.text, []⟩],
         false)
      else ([], [], false)
    | some (matchStart, len, pre, expr) =>
      let matchEnd := matchStart + len
      -- text before this mustache expression (empty when adjacent)
      let textBefore := (text.drop lastIndex).take (matchStart - lastIndex)
      let cleanedOffset1 := cleanedOffset + textBefore.length
      -- 200 characters of context before the match, from the original text
      let contextBefore := (text.take matchStart).drop (matchStart - 200)
      let replacement := generateSampleValue (pre ++ expr) contextBefore
      let cleanedOffset2 := cleanedOffset1 + replacement.length
      let mseg : PositionMapping :=
        ⟨matchStart, matchEnd, cleanedOffset1, cleanedOffset2, SegType.mustache, replacement⟩
      let rest := processLoop text fuel matchEnd cleanedOffset2
      let beforeSegs : List PositionMapping :=
        if lastIndex < matchStart then
          [⟨lastIndex, matchStart, cleanedOffset, cleanedOffset1, SegType.text, []⟩]
        else []
      (textBefore ++ replacement ++ rest.1, beforeSegs ++ mseg :: rest.2.1, true)

/-- Translation of `processMustacheTemplate(text)` from
mustacheProcessor.ts: run the matching loop over the whole text, then
post-process the cleaned text with `removeInvalidTrailingCommas` (the
mappings are not adjusted by that step, exactly as in the source). -/
def processMustacheTemplate (text : List Char) : MustacheProcessResult :=
  let r := processLoop text (text.length + 1) 0 0
  { cleanedText := removeInvalidTrailingCommas r.1
    hasMustache := r.2.2
    mappings := r.2.1 }

/-- The first `for (const mapping of mappings)` loop of
`mapCleanedToOriginal`: the first mapping whose closed cleaned range
contains the offset. -/
def findFirstContaining (cleanedOffset : Nat) : List PositionMapping → Option PositionMapping
  | [] => none
  | m :: ms =>
    if m.cleanedStart ≤ cleanedOffset ∧ cleanedOffset ≤ m.cleanedEnd then some m
    else findFirstContaining cleanedOffset ms

/-- The fallback loop of `mapCleanedToOriginal`
(`for (let i = mappings.length - 1; i >= 0; i--)`): the last mapping whose
`cleanedStart` is strictly below the offset. -/
def lastBefore (cleanedOffset : Nat) : List PositionMapping → Option PositionMapping
  | [] => none
  | m :: ms =>
    match lastBefore cleanedOffset ms with
    | some r => some r
    | none => if m.cleanedStart < cleanedOffset then some m else none

/-- Translation of `mapCleanedToOriginal(cleanedOffset, mappings)` from
mustacheProcessor.ts.  Offsets are natural numbers, so the guard
`cleanedOffset <= 0` of the source is the test against zero. -/
def mapCleanedToOriginal (cleanedOffset : Nat) (mappings : List PositionMapping) : Nat :=
  match findFirstContaining cleanedOffset mappings with
  | some m =>
    if m.type = SegType.text then m.originalStart + (cleanedOffset - m.cleanedStart)
    else m.originalStart
  | none =>
    if cleanedOffset ≤ 0 then 0
    else
      match lastBefore cleanedOffset mappings with
      | some m => m.originalEnd
      | none => 0

/-- Translation of `mapCleanedRangeToOriginal(cleanedStart, cleanedEnd,
mappings)` from mustacheProcessor.ts: apply the offset map to each bound
independently. -/
def mapCleanedRangeToOriginal (cleanedStart cleanedEnd : Nat)
    (mappings : List PositionMapping) : Nat × Nat :=
  (mapCleanedToOriginal cleanedStart mappings, mapCleanedToOriginal cleanedEnd mappings)

/-- Mirror of the fields of an AJV `ErrorObject` that the validation module
reads.  The `params` member is modelled by the three values the module
extracts from it (`additionalProperty`, `missingProperty`,
`allowedValues`); allowed values are represented by their rendered string
forms, since the module only ever passes them to `JSON.stringify` and
string concatenation. -/
structure AjvError where
  keyword : String
  instancePath : String
  schemaPath : String
  message : String
  addlProp : Option String
  missingProp : Option String
  allowedValues : Option (List String)
deriving DecidableEq

/-- The error-filter callback (`errors.filter(err => ...)`) of
`diagnosticsFromBetterErrors` in the validation module.  Resolution of
`err.instancePath` through the syntax tree of the cleaned text
(`findNodeAtLocation(root, pathArr)`, from the external jsonc-parser
library) is abstracted as the function `resolve`, returning the byte range
(offset, length) of the resolved node in the cleaned text, or `none` when
no node matches.  Everything else is translated directly: the `if` keyword
is always dropped; under an active mustache result, type-like errors on
nodes overlapping a non-empty mustache replacement are dropped. -/
def keepsError (resolve : AjvError → Option (Nat × Nat))
    (mustacheResult : Option MustacheProcessResult) (err : AjvError) : Bool :=
  -- Skip "if" keyword - these are just condition checks
  if err.keyword = "if" then false
  else
    match mustacheResult with
    | some mr =>
      if mr.hasMustache then
        match resolve err with
        | some (offset, length) =>
          let nodeStart := offset
          let nodeEnd := offset + length
          let wasMustache := mr.mappings.any fun m =>
            if m.type ≠ SegType.mustache ∨ m.replacement = [] then false
            else
              decide ((nodeStart ≥ m.cleanedStart ∧ nodeStart < m.cleanedEnd) ∨
                      (nodeEnd > m.cleanedStart ∧ nodeEnd ≤ m.cleanedEnd) ∨
                      (m.cleanedStart ≥ nodeStart ∧ m.cleanedStart < nodeEnd))
          if wasMustache then
            if err.keyword ∈ ["type", "format", "enum", "const", "pattern"] then false
            else true
          else true
        | none => true
      else true
    | none => true

/-- JS `String.prototype.includes`: the pattern occurs contiguously at some
position. -/
def containsSeq (pat : List Char) : List Char → Bool
  | [] => pat.isPrefixOf []
  | c :: rest => pat.isPrefixOf (c :: rest) || containsSeq pat rest

/-- Severity of a produced diagnostic, mirroring the two values of
`vscode.DiagnosticSeverity` the validation module uses. -/
inductive DiagnosticSeverity where
  | error
  | warning
deriving DecidableEq

/-- Attempt of `/allOf\/(\d+)/` at the start of a list: the literal
`allOf/` followed by one or more digits (greedily captured). -/
def allOfBranchAt (s : List Char) : Option (List Char) :=
  match s with
  | 'a' :: 'l' :: 'l' :: 'O' :: 'f' :: '/' :: rest =>
    let ds := rest.takeWhile Char.isDigit
    if ds = [] then none else some ds
  | _ => none

/-- JS `schemaPath.match(/allOf\/(\d+)/)`: the capture of the leftmost
match, scanning position by position. -/
def allOfBranchNum : List Char → Option (List Char)
  | [] => none
  | c :: rest =>
    match allOfBranchAt (c :: rest) with
    | some ds => some ds
    | none => allOfBranchNum rest

/-- Message and severity assembly for one surviving error in
`diagnosticsFromBetterErrors` (the `let msg`/`let severity` branch chain on
`err.keyword`).  `compName` abstracts the nearest-`dlsName` lookup, which
goes through the external jsonc-parser tree; a missing `params` string
renders as "undefined", as JS template interpolation of `undefined` would.
Severity starts as `error` and is reassigned only in the
`additionalProperties` branch, exactly as in the source. -/
def buildDiagMsgSeverity (compName : Option String) (err : AjvError) :
    String × DiagnosticSeverity :=
  let header := match compName with
    | some n => "[" ++ n ++ "]"
    | none => "[Unknown]"
  let isConditional :=
    containsSeq ("/allOf/".toList) err.schemaPath.toList ||
    containsSeq ("/if/".toList) err.schemaPath.toList ||
    containsSeq ("/then/".toList) err.schemaPath.toList ||
    containsSeq ("/else/".toList) err.schemaPath.toList
  let msg0 := header ++ " " ++ err.instancePath ++ " → " ++ err.message
  if err.keyword = "additionalProperties" then
    let extra := match err.addlProp with
      | some s => s
      | none => "undefined"
    (header ++ " " ++ err.instancePath ++ " → has additional property \"" ++ extra ++
       "\" (not allowed by schema)",
     DiagnosticSeverity.warning)
  else if err.keyword = "required" then
    let missingProp := match err.missingProp with
      | some s => s
      | none => "undefined"
    if isConditional then
      let branchNum := match allOfBranchNum err.schemaPath.toList with
        | some ds => "branch " ++ String.mk ds
        | none => "conditional schema"
      (header ++ " " ++ err.instancePath ++ " → missing required property \"" ++
         missingProp ++ "\" (required by " ++ branchNum ++ ")",
       DiagnosticSeverity.error)
    else
      (header ++ " " ++ err.instancePath ++ " → missing required property \"" ++
         missingProp ++ "\"",
       DiagnosticSeverity.error)
  else if err.keyword = "then" ∨ err.keyword = "else" then
    (msg0, DiagnosticSeverity.error)
  else if err.keyword = "enum" then
    match err.allowedValues with
    | some vs =>
      if vs.length > 0 then
        (header ++ " " ++ err.instancePath ++ " → must be one of: " ++
           String.intercalate ", " vs,
         DiagnosticSeverity.error)
      else (msg0, DiagnosticSeverity.error)
    | none => (msg0, DiagnosticSeverity.error)
  else if isConditional then
    (msg0 ++ " (from conditional schema)", DiagnosticSeverity.error)
  else (msg0, DiagnosticSeverity.error)

/-! Lemmas about the trailing-comma post-processor. -/

/-- When no comma-whitespace-close occurrence exists, a replacement pass
with sufficient fuel leaves the text unchanged. -/
lemma replaceCommaClose_of_not_has (close : Char) :
    ∀ (s : List Char) (fuel : Nat), hasCommaClose close s = false → s.length < fuel →
      replaceCommaClose close fuel s = s := by
  intro s
  induction s with
  | nil =>
    intro fuel _ hfuel
    match fuel, hfuel with
    | f + 1, _ => rfl
  | cons c rest ih =>
    intro fuel hno hfuel
    match fuel, hfuel with
    | f + 1, hfuel =>
      simp only [replaceCommaClose]
      by_cases hc : c = ','
      · rw [if_pos hc]
        split
        next d rest3 hdw =>
          by_cases hd : d = close
          · exfalso
            have ht : hasCommaClose close (c :: rest) = true := by
              simp [hasCommaClose, hc, hdw, hd]
            rw [hno] at ht
            exact Bool.noConfusion ht
          · have hrest : hasCommaClose close rest = false := by
              simpa [hasCommaClose, hc, hdw, hd] using hno
            rw [if_neg hd, ih f hrest (by simp at hfuel; omega)]
        next hdw =>
          have hrest : hasCommaClose close rest = false := by
            simpa [hasCommaClose, hc, hdw] using hno
          rw [ih f hrest (by simp at hfuel; omega)]
      · rw [if_neg hc]
        have hrest : hasCommaClose close rest = false := by
          simpa [hasCommaClose, hc] using hno
        rw [ih f hrest (by simp at hfuel; omega)]

/-- A replacement pass never lengthens the text. -/
lemma replaceCommaClose_length_le (close : Char) :
    ∀ (fuel : Nat) (s : List Char), (replaceCommaClose close fuel s).length ≤ s.length := by
  intro fuel
  induction fuel with
  | zero => intro s; simp [replaceCommaClose]
  | succ f ih =>
    intro s
    match s with
    | [] => simp [replaceCommaClose]
    | c :: rest =>
      simp only [replaceCommaClose]
      by_cases hc : c = ','
      · rw [if_pos hc]
        split
        next d rest3 hdw =>
          by_cases hd : d = close
          · rw [if_pos hd]
            have hlen : (rest.takeWhile isSpaceChar).length + (d :: rest3).length
                = rest.length := by
              conv_rhs => rw [← List.takeWhile_append_dropWhile (p := isSpaceChar) (l := rest)]
              rw [← hdw, List.length_append]
            have := ih rest3
            simp only [List.length_append, List.length_cons] at hlen ⊢
            omega
          · rw [if_neg hd]
            simpa using ih rest
        next hdw =>
          simpa using ih rest
      · rw [if_neg hc]
        simpa using ih rest

/-- The post-processor never lengthens the text. -/
lemma removeInvalidTrailingCommas_length_le (s : List Char) :
    (removeInvalidTrailingCommas s).length ≤ s.length :=
  le_trans (replaceCommaClose_length_le '}' _ _) (replaceCommaClose_length_le ']' _ _)

/-- C4, counterexample: the PostProcessor is not idempotent as claimed.  On
the three-character input comma-comma-bracket, one application removes the
second comma (the scanner fails at the first comma because another comma,
not a closing bracket, follows it) and a second application then removes
the first comma as well, so applying it twice differs from applying it
once. -/
theorem c4_counterexample :
    removeInvalidTrailingCommas (removeInvalidTrailingCommas [',', ',', ']']) ≠
      removeInvalidTrailingCommas [',', ',', ']'] := by decide

/-- C4 (amended): the PostProcessor `removeInvalidTrailingCommas` is
idempotent on every input whose one-pass output contains no remaining
separator-whitespace-close occurrence (for either closing character); a
repair can itself create a new occurrence (see the counterexample), and
exactly in the absence of such leftover occurrences is a second
application the identity. -/
theorem c4_idempotent_of_clean (s : List Char)
    (h1 : hasCommaClose ']' (removeInvalidTrailingCommas s) = false)
    (h2 : hasCommaClose '}' (removeInvalidTrailingCommas s) = false) :
    removeInvalidTrailingCommas (removeInvalidTrailingCommas s) =
      removeInvalidTrailingCommas s := by
  show replaceCommaClose '}' _ _ = _
  rw [replaceCommaClose_of_not_has ']' (removeInvalidTrailingCommas s) _ h1 (by omega)]
  rw [replaceCommaClose_of_not_has '}' (removeInvalidTrailingCommas s) _ h2 (by omega)]

/-- Witness for C4: on the two-character input comma-bracket the repaired
text is clean, and the theorem yields idempotence there. -/
theorem c4_witness :
    removeInvalidTrailingCommas (removeInvalidTrailingCommas [',', ']']) =
      removeInvalidTrailingCommas [',', ']'] :=
  c4_idempotent_of_clean [',', ']'] (by decide) (by decide)

/-! Lemmas relating the detection regex to the processing regex. -/

/-- The detection pattern and the double-brace alternative of the
processing pattern match at the same positions (they are the same pattern,
with and without capture groups). -/
lemma trySimple_eq (s : List Char) : trySimple s = (tryDouble s).isSome := by
  match s with
  | [] => rfl
  | [c] => rfl
  | c1 :: c2 :: rest =>
    simp only [trySimple, tryDouble]
    by_cases h : c1 = '{' ∧ c2 = '{'
    · rw [if_pos h, if_pos h]
      split
      next d1 d2 tl hdrop =>
        by_cases hd : d1 = '}' ∧ d2 = '}'
        · simp [hdrop, hd]
        · simp [hdrop, hd]
      next hdrop =>
        rcases hx : (sigilSplit rest).2.drop
            ((sigilSplit rest).2.takeWhile (fun c => c ≠ '}')).length with _ | ⟨e1, _ | ⟨e2, etl⟩⟩
        · simp [hx]
        · simp [hx]
        · exact (hdrop e1 e2 etl hx).elim
    · rw [if_neg h, if_neg h]
      rfl

/-- Whenever the triple-brace alternative matches at a position, the
double-brace alternative matches at that same position (the opening pair,
then a run starting with the extra opening brace, then the first two of
the three closing braces). -/
lemma tryDouble_isSome_of_tryTriple {s : List Char} {r : Nat × List Char}
    (h : tryTriple s = some r) : (tryDouble s).isSome := by
  match s with
  | [] => exact absurd h (by simp [tryTriple])
  | [c] => exact absurd h (by simp [tryTriple])
  | [c1, c2] => exact absurd h (by simp [tryTriple])
  | c1 :: c2 :: c3 :: rest =>
    simp only [tryTriple] at h
    by_cases hbr : c1 = '{' ∧ c2 = '{' ∧ c3 = '{'
    · rw [if_pos hbr] at h
      by_cases hemp : rest.takeWhile (fun c => c ≠ '}') = []
      · rw [if_pos hemp] at h
        exact absurd h (by simp)
      · rw [if_neg hemp] at h
        obtain ⟨hc1, hc2, hc3⟩ := hbr
        subst hc1; subst hc2; subst hc3
        split at h
        next d1 d2 d3 tl hdrop =>
          by_cases hd : d1 = '}' ∧ d2 = '}' ∧ d3 = '}'
          · -- the double-brace alternative also matches here
            simp only [tryDouble, if_pos (show '{' = '{' ∧ '{' = '{' from ⟨rfl, rfl⟩)]
            have hsig : sigilSplit ('{' :: rest) = ([], '{' :: rest) := rfl
            rw [hsig]
            have htw : ('{' :: rest).takeWhile (fun c => c ≠ '}')
                = '{' :: rest.takeWhile (fun c => c ≠ '}') := rfl
            simp only [htw, List.length_cons, List.drop_succ_cons, hdrop]
            simp [hd.1, hd.2.1]
          · rw [if_neg hd] at h
            exact absurd h (by simp)
        next => exact absurd h (by simp)
    · rw [if_neg hbr] at h
      exact absurd h (by simp)

/-- The processing scanner finds a match somewhere iff the detection
pattern matches somewhere. -/
lemma scan_isSome_eq (s : List Char) : ∀ i, (scan s i).isSome = hasMustacheSyntax s := by
  induction s with
  | nil => intro i; rfl
  | cons c rest ih =>
    intro i
    simp only [scan, hasMustacheSyntax]
    cases ht : tryTriple (c :: rest) with
    | some r =>
      have hd := tryDouble_isSome_of_tryTriple ht
      simp [trySimple_eq, hd]
    | none =>
      cases hd : tryDouble (c :: rest) with
      | some v =>
        obtain ⟨len, pre, expr⟩ := v
        simp [trySimple_eq, hd]
      | none =>
        simp [trySimple_eq, hd, ih (i + 1)]

/-- When the detection predicate is false, the scanner finds nothing. -/
lemma scan_eq_none_of_no_mustache {s : List Char} (h : hasMustacheSyntax s = false)
    (i : Nat) : scan s i = none := by
  have := scan_isSome_eq s i
  rw [h] at this
  exact Option.not_isSome_iff_eq_none.mp (by simp [this])

/-- The found-mustache component of one loop step is exactly whether the
scanner finds a match from the current position. -/
lemma processLoop_found (text : List Char) (fuel l c : Nat) :
    (processLoop text (fuel + 1) l c).2.2 = (scan (text.drop l) l).isSome := by
  simp only [processLoop]
  cases hs : scan (text.drop l) l with
  | none => by_cases hl : l < text.length <;> simp [hl]
  | some v =>
    obtain ⟨st, len, pre, expr⟩ := v
    simp

/-- C10: the `hasMustache` flag returned by `processMustacheTemplate` is
true exactly when the detection predicate `hasMustacheSyntax` holds — the
two regular expressions (detection, and triple-or-double processing)
succeed on the same inputs, since a triple-brace match always contains a
double-brace match of the detection shape. -/
theorem c10_hasMustache_eq_detection (text : List Char) :
    (processMustacheTemplate text).hasMustache = hasMustacheSyntax text := by
  show (processLoop text (text.length + 1) 0 0).2.2 = _
  rw [processLoop_found text text.length 0 0]
  rw [List.drop_zero]
  exact scan_isSome_eq text 0

/-! Bounds of the scanner, and step equations for the processing loop. -/

lemma takeWhile_length_le (p : Char → Bool) (l : List Char) :
    (l.takeWhile p).length ≤ l.length := by
  induction l with
  | nil => simp
  | cons c cs ih =>
    rw [List.takeWhile_cons]
    split
    · simp
      omega
    · simp

lemma sigilSplit_length (l : List Char) :
    (sigilSplit l).1.length + (sigilSplit l).2.length = l.length := by
  match l with
  | [] => rfl
  | c :: cs =>
    simp only [sigilSplit]
    by_cases h : isSigil c = true
    · simp [h]
      omega
    · simp [h]

/-- A triple-brace match is nonempty and fits inside the list it was found
at the head of. -/
lemma tryTriple_bounds {s : List Char} {len : Nat} {e : List Char}
    (h : tryTriple s = some (len, e)) : 0 < len ∧ len ≤ s.length := by
  match s with
  | [] => exact absurd h (by simp [tryTriple])
  | [_] => exact absurd h (by simp [tryTriple])
  | [_, _] => exact absurd h (by simp [tryTriple])
  | c1 :: c2 :: c3 :: rest =>
    simp only [tryTriple] at h
    by_cases hbr : c1 = '{' ∧ c2 = '{' ∧ c3 = '{'
    · rw [if_pos hbr] at h
      by_cases hemp : rest.takeWhile (fun c => c ≠ '}') = []
      · rw [if_pos hemp] at h
        exact absurd h (by simp)
      · rw [if_neg hemp] at h
        split at h
        next d1 d2 d3 tl hdrop =>
          by_cases hd : d1 = '}' ∧ d2 = '}' ∧ d3 = '}'
          · rw [if_pos hd] at h
            simp only [Option.some.injEq, Prod.mk.injEq] at h
            obtain ⟨h1, _⟩ := h
            have hdl := congrArg List.length hdrop
            rw [List.length_drop] at hdl
            have htwle := takeWhile_length_le (fun c => decide (c ≠ '}')) rest
            simp only [List.length_cons] at hdl ⊢
            omega
          · rw [if_neg hd] at h
            exact absurd h (by simp)
        next => exact absurd h (by simp)
    · rw [if_neg hbr] at h
      exact absurd h (by simp)

/-- A double-brace match is nonempty and fits inside the list it was found
at the head of. -/
lemma tryDouble_bounds {s : List Char} {len : Nat} {pre expr : List Char}
    (h : tryDouble s = some (len, pre, expr)) : 0 < len ∧ len ≤ s.length := by
  match s with
  | [] => exact absurd h (by simp [tryDouble])
  | [_] => exact absurd h (by simp [tryDouble])
  | c1 :: c2 :: rest =>
    simp only [tryDouble] at h
    by_cases hbr : c1 = '{' ∧ c2 = '{'
    · rw [if_pos hbr] at h
      split at h
      next d1 d2 tl hdrop =>
        by_cases hd : d1 = '}' ∧ d2 = '}'
        · rw [if_pos hd] at h
          simp only [Option.some.injEq, Prod.mk.injEq] at h
          obtain ⟨h1, _⟩ := h
          have hdl := congrArg List.length hdrop
          rw [List.length_drop] at hdl
          have htwle := takeWhile_length_le (fun c => decide (c ≠ '}')) (sigilSplit rest).2
          have hsl := sigilSplit_length rest
          simp only [List.length_cons] at hdl ⊢
          omega
        · rw [if_neg hd] at h
          exact absurd h (by simp)
      next => exact absurd h (by simp)
    · rw [if_neg hbr] at h
      exact absurd h (by simp)

/-- A successful scan from absolute position `i` over a suffix yields a
match that starts no earlier than `i`, is nonempty, and ends within the
suffix. -/
lemma scan_bounds : ∀ (s : List Char) (i : Nat) {st len : Nat} {pre expr : List Char},
    scan s i = some (st, len, pre, expr) →
    i ≤ st ∧ 0 < len ∧ st + len ≤ i + s.length := by
  intro s
  induction s with
  | nil => intro i st len pre expr h; exact absurd h (by simp [scan])
  | cons c rest ih =>
    intro i st len pre expr h
    simp only [scan] at h
    split at h
    next tlen texpr heq =>
      simp only [Option.some.injEq, Prod.mk.injEq] at h
      obtain ⟨h1, h2, _, _⟩ := h
      have hb := tryTriple_bounds heq
      simp only [List.length_cons] at hb ⊢
      omega
    next =>
      split at h
      next dlen dpre dexpr heq =>
        simp only [Option.some.injEq, Prod.mk.injEq] at h
        obtain ⟨h1, h2, _, _⟩ := h
        have hb := tryDouble_bounds heq
        simp only [List.length_cons] at hb ⊢
        omega
      next =>
        have hb := ih (i + 1) h
        simp only [List.length_cons]
        omega

/-- Step equation of the loop when the scanner finds nothing. -/
lemma processLoop_succ_none (text : List Char) (n l c : Nat)
    (hs : scan (text.drop l) l = none) :
    processLoop text (n + 1) l c =
      if l < text.length then
        (text.drop l,
         [⟨l, text.length, c, c + (text.drop l).length, SegType.text, []⟩],
         false)
      else ([], [], false) := by
  simp only [processLoop, hs]

/-- Step equation of the loop when the scanner finds a match. -/
lemma processLoop_succ_some (text : List Char) (n l c st len : Nat) (pre expr : List Char)
    (hs : scan (text.drop l) l = some (st, len, pre, expr)) :
    processLoop text (n + 1) l c =
      ((text.drop l).take (st - l) ++
         generateSampleValue (pre ++ expr) ((text.take st).drop (st - 200)) ++
         (processLoop text n (st + len)
           (c + ((text.drop l).take (st - l)).length +
             (generateSampleValue (pre ++ expr) ((text.take st).drop (st - 200))).length)).1,
       (if l < st then
          [⟨l, st, c, c + ((text.drop l).take (st - l)).length, SegType.text, []⟩]
        else []) ++
         ⟨st, st + len, c + ((text.drop l).take (st - l)).length,
           c + ((text.drop l).take (st - l)).length +
             (generateSampleValue (pre ++ expr) ((text.take st).drop (st - 200))).length,
           SegType.mustache,
           generateSampleValue (pre ++ expr) ((text.take st).drop (st - 200))⟩ ::
         (processLoop text n (st + len)
           (c + ((text.drop l).take (st - l)).length +
             (generateSampleValue (pre ++ expr) ((text.take st).drop (st - 200))).length)).2.1,
       true) := by
  simp only [processLoop, hs]

/-! The segment-tiling invariant of the transducer. -/

/-- The mappings tile the original interval from `a` to `b` and the
cleaned interval from `c` to `d`: each segment begins exactly where the
previous one ended, on both the original and the cleaned side (hence: no
gaps, no overlaps, full coverage of both intervals). -/
def segChain : Nat → Nat → Nat → Nat → List PositionMapping → Prop
  | a, b, c, d, [] => a = b ∧ c = d
  | a, b, c, d, m :: ms =>
    m.originalStart = a ∧ m.cleanedStart = c ∧ a ≤ m.originalEnd ∧ c ≤ m.cleanedEnd ∧
      segChain m.originalEnd b m.cleanedEnd d ms

/-- The loop emits a segment chain that tiles the original interval from
`lastIndex` to the end of the text and the cleaned interval from
`cleanedOffset` to `cleanedOffset` plus the length of the produced
(pre-post-processing) cleaned text. -/
lemma processLoop_chain (text : List Char) :
    ∀ (fuel lastIndex cleanedOffset : Nat), lastIndex ≤ text.length →
      text.length - lastIndex < fuel →
      segChain lastIndex text.length cleanedOffset
        (cleanedOffset + (processLoop text fuel lastIndex cleanedOffset).1.length)
        (processLoop text fuel lastIndex cleanedOffset).2.1 := by
  intro fuel
  induction fuel with
  | zero => intro l c _ h2; omega
  | succ n ih =>
    intro l c hle hfuel
    cases hs : scan (text.drop l) l with
    | none =>
      rw [processLoop_succ_none text n l c hs]
      by_cases hl : l < text.length
      · rw [if_pos hl]
        exact ⟨rfl, rfl, hle, Nat.le_add_right _ _, rfl, rfl⟩
      · rw [if_neg hl]
        have heq : l = text.length := le_antisymm hle (not_lt.mp hl)
        simp [segChain, heq]
    | some v =>
      obtain ⟨st, len, pre, expr⟩ := v
      have hb := scan_bounds _ _ hs
      have hdl : (text.drop l).length = text.length - l := by simp
      rw [hdl] at hb
      have hstle : st + len ≤ text.length := by omega
      rw [processLoop_succ_some text n l c st len pre expr hs]
      set tB := (text.drop l).take (st - l) with htBdef
      set repl := generateSampleValue (pre ++ expr) ((text.take st).drop (st - 200)) with hrepldef
      set rest := processLoop text n (st + len) (c + tB.length + repl.length) with hrestdef
      have htB : tB.length = st - l := by
        rw [htBdef, List.length_take, hdl]
        omega
      have hih := ih (st + len) (c + tB.length + repl.length) (by omega) (by omega)
      rw [show c + (tB ++ repl ++ rest.1).length
            = c + tB.length + repl.length + rest.1.length
          from by simp only [List.length_append]; omega]
      by_cases hls : l < st
      · rw [if_pos hls]
        simp only [List.singleton_append]
        refine ⟨rfl, rfl, ?_, ?_, rfl, rfl, ?_, ?_, hih⟩
        · show l ≤ st
          omega
        · show c ≤ c + tB.length
          omega
        · show st ≤ st + len
          omega
        · show c + tB.length ≤ c + tB.length + repl.length
          omega
      · rw [if_neg hls]
        have hlst : l = st := by omega
        simp only [List.nil_append]
        refine ⟨hlst.symm, ?_, ?_, ?_, hih⟩
        · show c + tB.length = c
          omega
        · show l ≤ st + len
          omega
        · show c ≤ c + tB.length + repl.length
          omega

/-- A chain runs left to right on both sides. -/
lemma segChain_le : ∀ {ms : List PositionMapping} {a b c d : Nat},
    segChain a b c d ms → a ≤ b ∧ c ≤ d := by
  intro ms
  induction ms with
  | nil => intro a b c d h; exact ⟨le_of_eq h.1, le_of_eq h.2⟩
  | cons m tl ih =>
    intro a b c d h
    obtain ⟨_, _, h3, h4, h5⟩ := h
    have := ih h5
    omega

/-- Original-range lengths of a chain sum to the length of the tiled
original interval. -/
lemma segChain_sum_orig : ∀ {ms : List PositionMapping} {a b c d : Nat},
    segChain a b c d ms →
    (ms.map fun m => m.originalEnd - m.originalStart).sum = b - a := by
  intro ms
  induction ms with
  | nil => intro a b c d h; simp [h.1]
  | cons m tl ih =>
    intro a b c d h
    obtain ⟨h1, _, h3, _, h5⟩ := h
    have hrec := ih h5
    have hbd := segChain_le h5
    simp only [List.map_cons, List.sum_cons, hrec, h1]
    omega

/-- Cleaned-range lengths of a chain sum to the length of the tiled
cleaned interval. -/
lemma segChain_sum_cleaned : ∀ {ms : List PositionMapping} {a b c d : Nat},
    segChain a b c d ms →
    (ms.map fun m => m.cleanedEnd - m.cleanedStart).sum = d - c := by
  intro ms
  induction ms with
  | nil => intro a b c d h; simp [h.2]
  | cons m tl ih =>
    intro a b c d h
    obtain ⟨_, h2, _, h4, h5⟩ := h
    have hrec := ih h5
    have hbd := segChain_le h5
    simp only [List.map_cons, List.sum_cons, hrec, h2]
    omega

/-- Every member of a chain starts (on the cleaned side) no earlier than
the chain's cleaned origin. -/
lemma segChain_cleanedStart_le : ∀ {ms : List PositionMapping} {a b c d : Nat},
    segChain a b c d ms → ∀ m ∈ ms, c ≤ m.cleanedStart := by
  intro ms
  induction ms with
  | nil => intro a b c d _ m hm; exact absurd hm (by simp)
  | cons m0 tl ih =>
    intro a b c d h m hm
    obtain ⟨_, h2, _, h4, h5⟩ := h
    rcases List.mem_cons.mp hm with rfl | hm'
    · omega
    · have := ih h5 m hm'
      omega

/-- Cleaned starts are monotone along a chain. -/
lemma segChain_pairwise : ∀ {ms : List PositionMapping} {a b c d : Nat},
    segChain a b c d ms →
    ms.Pairwise (fun x y => x.cleanedStart ≤ y.cleanedStart) := by
  intro ms
  induction ms with
  | nil => intro a b c d _; exact List.Pairwise.nil
  | cons m0 tl ih =>
    intro a b c d h
    obtain ⟨_, h2, _, h4, h5⟩ := h
    refine List.Pairwise.cons ?_ (ih h5)
    intro y hy
    have := segChain_cleanedStart_le h5 y hy
    omega

/-- C2, counterexample: the trailing-comma post-processing runs after the
mappings are finalised, so on the two-character input comma-bracket the
single recorded cleaned range has length 2 while the `cleanedText` field
has length 1: the cleaned ranges do not partition the cleanedText field of
the result. -/
theorem c2_counterexample :
    ((processMustacheTemplate [',', ']']).mappings.map
        (fun m => m.cleanedEnd - m.cleanedStart)).sum ≠
      (processMustacheTemplate [',', ']']).cleanedText.length := by decide

/-- C2 (amended): the segment list emitted by the Transducer tiles, with no
gaps or overlaps, the full original text on the original side and the full
pre-post-processing cleaned text on the cleaned side; original-range
lengths sum to the original length, cleaned-range lengths sum to the
pre-post-processing cleaned length, and cleanedStart is monotone; the
`cleanedText` field is the post-processed (trailing-comma-repaired) text,
which can only be shorter, so the cleaned ranges partition the `cleanedText`
field itself exactly when the repair removes nothing. -/
theorem c2_partition (text : List Char) :
    segChain 0 text.length 0 (processLoop text (text.length + 1) 0 0).1.length
      (processMustacheTemplate text).mappings ∧
    ((processMustacheTemplate text).mappings.map
        (fun m => m.originalEnd - m.originalStart)).sum = text.length ∧
    ((processMustacheTemplate text).mappings.map
        (fun m => m.cleanedEnd - m.cleanedStart)).sum =
      (processLoop text (text.length + 1) 0 0).1.length ∧
    (processMustacheTemplate text).mappings.Pairwise
      (fun x y => x.cleanedStart ≤ y.cleanedStart) ∧
    (processMustacheTemplate text).cleanedText =
      removeInvalidTrailingCommas (processLoop text (text.length + 1) 0 0).1 ∧
    (processMustacheTemplate text).cleanedText.length ≤
      (processLoop text (text.length + 1) 0 0).1.length := by
  have hchain := processLoop_chain text (text.length + 1) 0 0 (Nat.zero_le _) (by omega)
  rw [Nat.zero_add] at hchain
  have hmap : (processMustacheTemplate text).mappings
      = (processLoop text (text.length + 1) 0 0).2.1 := rfl
  have hct : (processMustacheTemplate text).cleanedText
      = removeInvalidTrailingCommas (processLoop text (text.length + 1) 0 0).1 := rfl
  refine ⟨hmap ▸ hchain, ?_, ?_, ?_, hct, ?_⟩
  · rw [hmap]
    simpa using segChain_sum_orig hchain
  · rw [hmap]
    simpa using segChain_sum_cleaned hchain
  · rw [hmap]
    exact segChain_pairwise hchain
  · rw [hct]
    exact removeInvalidTrailingCommas_length_le _

/-- C3, counterexample: the claim fails in two ways.  The two-character
input comma-bracket contains no placeholder syntax, yet the Transducer's
`cleanedText` is not the input verbatim (the unconditional trailing-comma
repair removes the comma); and on the empty input the segment list is
empty rather than a single full-span text segment. -/
theorem c3_counterexample :
    hasMustacheSyntax [',', ']'] = false ∧
    (processMustacheTemplate [',', ']']).cleanedText ≠ [',', ']'] ∧
    hasMustacheSyntax ([] : List Char) = false ∧
    (processMustacheTemplate ([] : List Char)).mappings.length ≠ 1 := by decide

/-- C3 (amended): for every nonempty input with no placeholder syntax, the
Transducer returns the post-processed input as `cleanedText` (hence the
input verbatim whenever the input contains no comma-whitespace-closer
occurrence), reports `hasMustache = false`, emits the single full-span
text segment, and the offset map is the identity on offsets up to the
text's length. -/
theorem c3_no_placeholder (text : List Char) (hno : hasMustacheSyntax text = false)
    (hne : text ≠ []) :
    (processMustacheTemplate text).cleanedText = removeInvalidTrailingCommas text ∧
    (processMustacheTemplate text).hasMustache = false ∧
    (processMustacheTemplate text).mappings =
      [⟨0, text.length, 0, text.length, SegType.text, []⟩] ∧
    (hasCommaClose ']' text = false → hasCommaClose '}' text = false →
      (processMustacheTemplate text).cleanedText = text) ∧
    ∀ O, O ≤ text.length →
      mapCleanedToOriginal O (processMustacheTemplate text).mappings = O := by
  have hscan : scan (text.drop 0) 0 = none := by
    rw [List.drop_zero]
    exact scan_eq_none_of_no_mustache hno 0
  have hstep := processLoop_succ_none text text.length 0 0 hscan
  have hlpos : 0 < text.length := List.length_pos.mpr hne
  rw [if_pos hlpos] at hstep
  have hm : (processMustacheTemplate text).mappings
      = [⟨0, text.length, 0, text.length, SegType.text, []⟩] := by
    show (processLoop text (text.length + 1) 0 0).2.1 = _
    rw [hstep]
    simp
  have hc : (processMustacheTemplate text).cleanedText
      = removeInvalidTrailingCommas text := by
    show removeInvalidTrailingCommas (processLoop text (text.length + 1) 0 0).1 = _
    rw [hstep]
    simp
  have hf : (processMustacheTemplate text).hasMustache = false := by
    show (processLoop text (text.length + 1) 0 0).2.2 = _
    rw [hstep]
  refine ⟨hc, hf, hm, ?_, ?_⟩
  · intro h1 h2
    rw [hc]
    show replaceCommaClose '}' _ _ = _
    rw [replaceCommaClose_of_not_has ']' text _ h1 (by omega)]
    rw [replaceCommaClose_of_not_has '}' text _ h2 (by omega)]
  · intro O hO
    rw [hm]
    unfold mapCleanedToOriginal findFirstContaining
    rw [if_pos (show (0 : Nat) ≤ O ∧ O ≤ text.length from ⟨Nat.zero_le O, hO⟩)]
    simp

/-- Witness for C3: the one-character input holds every amended conclusion;
in particular the cleaned text is the input itself and offset 1 maps to 1. -/
theorem c3_witness :
    (processMustacheTemplate ['a']).cleanedText = ['a'] ∧
    mapCleanedToOriginal 1 (processMustacheTemplate ['a']).mappings = 1 := by
  have h := c3_no_placeholder ['a'] (by decide) (by decide)
  exact ⟨h.2.2.2.1 (by decide) (by decide), h.2.2.2.2 1 (by decide)⟩

/-- Per-segment structural facts: a mustache segment's cleaned range is
exactly as long as its replacement; a text segment carries no replacement
and has ranges of equal length on both sides. -/
lemma processLoop_mem (text : List Char) :
    ∀ (fuel l c : Nat) (m : PositionMapping), m ∈ (processLoop text fuel l c).2.1 →
      (m.type = SegType.mustache → m.cleanedEnd = m.cleanedStart + m.replacement.length) ∧
      (m.type = SegType.text →
        m.replacement = [] ∧
          m.cleanedEnd - m.cleanedStart = m.originalEnd - m.originalStart) := by
  intro fuel
  induction fuel with
  | zero => intro l c m hm; exact absurd hm (by simp [processLoop])
  | succ n ih =>
    intro l c m hm
    cases hs : scan (text.drop l) l with
    | none =>
      rw [processLoop_succ_none text n l c hs] at hm
      by_cases hl : l < text.length
      · rw [if_pos hl] at hm
        simp only [List.mem_singleton] at hm
        subst hm
        refine ⟨fun ht => absurd ht (by simp), fun _ => ⟨rfl, ?_⟩⟩
        show c + (text.drop l).length - c = text.length - l
        simp
      · rw [if_neg hl] at hm
        exact absurd hm (by simp)
    | some v =>
      obtain ⟨st, len, pre, expr⟩ := v
      have hb := scan_bounds _ _ hs
      rw [processLoop_succ_some text n l c st len pre expr hs] at hm
      set tB := (text.drop l).take (st - l) with htBdef
      set repl := generateSampleValue (pre ++ expr) ((text.take st).drop (st - 200)) with hrepldef
      have htB : tB.length = st - l := by
        rw [htBdef, List.length_take]
        omega
      rw [List.mem_append] at hm
      rcases hm with hm | hm
      · by_cases hls : l < st
        · rw [if_pos hls] at hm
          simp only [List.mem_singleton] at hm
          subst hm
          refine ⟨fun ht => absurd ht (by simp), fun _ => ⟨rfl, ?_⟩⟩
          show c + tB.length - c = st - l
          omega
        · rw [if_neg hls] at hm
          exact absurd hm (by simp)
      · rw [List.mem_cons] at hm
        rcases hm with rfl | hm
        · refine ⟨fun _ => ?_, fun ht => absurd ht (by simp)⟩
          show c + tB.length + repl.length = c + tB.length + repl.length
          rfl
        · exact ih (st + len) (c + tB.length + repl.length) m hm

/-! Lemmas about the offset mapper. -/

/-- The first containing segment of an appended list whose first block
contains nothing is the first containing segment found at the head of the
second block. -/
lemma findFirstContaining_append (pre : List PositionMapping) (m : PositionMapping)
    (rest : List PositionMapping) (O : Nat)
    (hpre : ∀ p ∈ pre, ¬(p.cleanedStart ≤ O ∧ O ≤ p.cleanedEnd))
    (hm : m.cleanedStart ≤ O ∧ O ≤ m.cleanedEnd) :
    findFirstContaining O (pre ++ m :: rest) = some m := by
  induction pre with
  | nil => simp [findFirstContaining, hm]
  | cons p ps ih =>
    rw [List.cons_append]
    unfold findFirstContaining
    rw [if_neg (hpre p (by simp))]
    exact ih fun q hq => hpre q (by simp [hq])

/-- The offset map resolves an offset through the earliest segment whose
closed cleaned range contains it: text segments shift, mustache segments
collapse to their original start. -/
lemma mapCleanedToOriginal_eq_of_first (pre : List PositionMapping) (m : PositionMapping)
    (rest : List PositionMapping) (O : Nat)
    (hpre : ∀ p ∈ pre, ¬(p.cleanedStart ≤ O ∧ O ≤ p.cleanedEnd))
    (h1 : m.cleanedStart ≤ O) (h2 : O ≤ m.cleanedEnd) :
    mapCleanedToOriginal O (pre ++ m :: rest) =
      if m.type = SegType.text then m.originalStart + (O - m.cleanedStart)
      else m.originalStart := by
  unfold mapCleanedToOriginal
  rw [findFirstContaining_append pre m rest O hpre ⟨h1, h2⟩]

/-- When no segment of the list has `cleanedStart` below the offset, the
fallback scan finds nothing. -/
lemma lastBefore_eq_none (O : Nat) :
    ∀ (ms : List PositionMapping), (∀ p ∈ ms, ¬(p.cleanedStart < O)) →
      lastBefore O ms = none := by
  intro ms
  induction ms with
  | nil => intro _; rfl
  | cons p ps ih =>
    intro h
    unfold lastBefore
    rw [ih fun q hq => h q (by simp [hq])]
    rw [if_neg (h p (by simp))]

/-- The fallback scan returns the last segment whose `cleanedStart` is
below the offset. -/
lemma lastBefore_append (pre : List PositionMapping) (m : PositionMapping)
    (rest : List PositionMapping) (O : Nat)
    (hm : m.cleanedStart < O)
    (hrest : ∀ p ∈ rest, ¬(p.cleanedStart < O)) :
    lastBefore O (pre ++ m :: rest) = some m := by
  induction pre with
  | nil =>
    rw [List.nil_append]
    unfold lastBefore
    rw [lastBefore_eq_none O rest hrest, if_pos hm]
  | cons p ps ih =>
    rw [List.cons_append]
    unfold lastBefore
    rw [ih]

/-- No containing segment means the first loop of the mapper fails. -/
lemma findFirstContaining_eq_none (O : Nat) :
    ∀ (ms : List PositionMapping), (∀ p ∈ ms, ¬(p.cleanedStart ≤ O ∧ O ≤ p.cleanedEnd)) →
      findFirstContaining O ms = none := by
  intro ms
  induction ms with
  | nil => intro _; rfl
  | cons p ps ih =>
    intro h
    unfold findFirstContaining
    rw [if_neg (h p (by simp))]
    exact ih fun q hq => h q (by simp [hq])

/-- A chain that covers an offset has a segment containing it. -/
lemma segChain_covers : ∀ (ms : List PositionMapping) {a b c d O : Nat},
    segChain a b c d ms → ms ≠ [] → c ≤ O → O ≤ d →
    ∃ pre m rest, ms = pre ++ m :: rest ∧ m.cleanedStart ≤ O ∧ O ≤ m.cleanedEnd := by
  intro ms
  induction ms with
  | nil => intro a b c d O _ hne _ _; exact absurd rfl hne
  | cons m tl ih =>
    intro a b c d O h _ hcO hOd
    obtain ⟨_, h2, _, h4, h5⟩ := h
    by_cases hOm : O ≤ m.cleanedEnd
    · exact ⟨[], m, tl, rfl, by omega, hOm⟩
    · cases tl with
      | nil =>
        obtain ⟨_, hcd⟩ := h5
        omega
      | cons m2 tl2 =>
        obtain ⟨pre2, mm, rest2, heq, hs, he⟩ :=
          ih h5 (by simp) (by omega) hOd
        exact ⟨m :: pre2, mm, rest2, by rw [heq, List.cons_append], hs, he⟩

/-- C1, counterexample: on the six-character input consisting of a
placeholder followed by the letter a, the second (text) segment's cleaned
range contains offset 13 (its cleanedStart), yet the mapper resolves 13
through the earlier mustache segment and returns 0, not the text-segment
formula's value 5 + (13 - 13). -/
theorem c1_counterexample :
    (processMustacheTemplate ['{', '{', 'x', '}', '}', 'a']).mappings.get? 1 =
      some ⟨5, 6, 13, 14, SegType.text, []⟩ ∧
    mapCleanedToOriginal 13 (processMustacheTemplate ['{', '{', 'x', '}', '}', 'a']).mappings ≠
      5 + (13 - 13) := by decide

/-- C1 (amended): for every mapping list produced by the Transducer and
every cleaned offset O, the mapper returns
`originalStart + (O - cleanedStart)` for a text segment and
`originalStart` for a mustache segment, where the segment is the earliest
one in the list whose closed cleaned range contains O (at an offset shared
between a segment's cleanedEnd and the next segment's cleanedStart, the
earlier segment is the one used — see C9). -/
theorem c1_mapping_formulas (text : List Char) (pre : List PositionMapping)
    (m : PositionMapping) (rest : List PositionMapping) (O : Nat)
    (hsplit : (processMustacheTemplate text).mappings = pre ++ m :: rest)
    (hpre : ∀ p ∈ pre, ¬(p.cleanedStart ≤ O ∧ O ≤ p.cleanedEnd))
    (h1 : m.cleanedStart ≤ O) (h2 : O ≤ m.cleanedEnd) :
    mapCleanedToOriginal O (processMustacheTemplate text).mappings =
      if m.type = SegType.text then m.originalStart + (O - m.cleanedStart)
      else m.originalStart := by
  rw [hsplit]
  exact mapCleanedToOriginal_eq_of_first pre m rest O hpre h1 h2

/-- Witness for C1: on the placeholder-then-letter input, offset 5 lies
inside the mustache segment's replacement range and maps to the
placeholder's original start 0. -/
theorem c1_witness :
    mapCleanedToOriginal 5 (processMustacheTemplate ['{', '{', 'x', '}', '}', 'a']).mappings
      = 0 := by
  have h := c1_mapping_formulas ['{', '{', 'x', '}', '}', 'a'] []
    ⟨0, 5, 0, 13, SegType.mustache, "\"sampleValue\"".toList⟩
    [⟨5, 6, 13, 14, SegType.text, []⟩] 5
    (by decide) (by decide) (by decide) (by decide)
  simpa using h

/-- C8: the offset mapper is total and deterministic (it is a function into
the naturals, returning exactly one original position for every offset and
mapping list); an offset contained in no recorded cleaned range falls back
to the original end of the nearest preceding segment (the last segment
whose cleanedStart lies below the offset), or to 0 when there is none; and
for every Transducer run on a nonempty text, every offset up to the length
of the returned `cleanedText` is in fact covered by some recorded segment
(post-processing only shortens the cleaned text). -/
theorem c8_total_and_fallback :
    (∀ (ms : List PositionMapping) (O : Nat), ∃! r, mapCleanedToOriginal O ms = r) ∧
    (∀ (ms : List PositionMapping) (O : Nat), 0 < O →
      (∀ p ∈ ms, ¬(p.cleanedStart ≤ O ∧ O ≤ p.cleanedEnd)) →
      ∀ (pre : List PositionMapping) (m : PositionMapping) (rest : List PositionMapping),
        ms = pre ++ m :: rest → m.cleanedStart < O →
        (∀ p ∈ rest, ¬(p.cleanedStart < O)) →
        mapCleanedToOriginal O ms = m.originalEnd) ∧
    (∀ (text : List Char) (O : Nat), text ≠ [] →
      O ≤ (processMustacheTemplate text).cleanedText.length →
      ∃ pre m rest,
        (processMustacheTemplate text).mappings = pre ++ m :: rest ∧
        m.cleanedStart ≤ O ∧ O ≤ m.cleanedEnd) := by
  refine ⟨fun ms O => ⟨mapCleanedToOriginal O ms, rfl, fun y hy => hy.symm⟩, ?_, ?_⟩
  · intro ms O hO hnone pre m rest heq hm hrest
    subst heq
    unfold mapCleanedToOriginal
    rw [findFirstContaining_eq_none O _ hnone]
    rw [if_neg (by omega)]
    rw [lastBefore_append pre m rest O hm hrest]
  · intro text O hne hO
    have hchain := processLoop_chain text (text.length + 1) 0 0 (Nat.zero_le _) (by omega)
    rw [Nat.zero_add] at hchain
    have hmap : (processMustacheTemplate text).mappings
        = (processLoop text (text.length + 1) 0 0).2.1 := rfl
    have hmsne : (processLoop text (text.length + 1) 0 0).2.1 ≠ [] := by
      intro hnil
      rw [hnil] at hchain
      obtain ⟨hab, _⟩ := hchain
      exact hne (List.length_eq_zero.mp hab.symm)
    have hOle : O ≤ (processLoop text (text.length + 1) 0 0).1.length := by
      have hle := removeInvalidTrailingCommas_length_le (processLoop text (text.length + 1) 0 0).1
      have : (processMustacheTemplate text).cleanedText
          = removeInvalidTrailingCommas (processLoop text (text.length + 1) 0 0).1 := rfl
      rw [this] at hO
      omega
    rw [hmap]
    exact segChain_covers _ hchain hmsne (Nat.zero_le O) hOle

/-- Witness for C8: with the single text segment covering cleaned range
0 to 2, the out-of-range offset 5 falls back to the segment's original
end 2. -/
theorem c8_witness :
    mapCleanedToOriginal 5 [⟨0, 2, 0, 2, SegType.text, []⟩] = 2 :=
  c8_total_and_fallback.2.1 [⟨0, 2, 0, 2, SegType.text, []⟩] 5 (by decide) (by decide)
    [] ⟨0, 2, 0, 2, SegType.text, []⟩ [] rfl (by decide) (by decide)

/-- C9: containment in the offset mapper is inclusive at the upper bound,
and the scan takes the first hit: at an offset O that is both the
cleanedEnd of a mustache segment and the cleanedStart of the following
text segment (no earlier segment containing O), the mapper resolves O
through the earlier mustache segment, returning its originalStart rather
than the following text segment's start; the end bound of every range
mapped through `mapCleanedRangeToOriginal` inherits this behaviour, since
each bound is mapped independently. -/
theorem c9_upper_bound_inclusive (pre : List PositionMapping) (m1 m2 : PositionMapping)
    (rest : List PositionMapping) (O s : Nat)
    (hpre : ∀ p ∈ pre, ¬(p.cleanedStart ≤ O ∧ O ≤ p.cleanedEnd))
    (hm1s : m1.cleanedStart ≤ O) (hm1e : m1.cleanedEnd = O)
    (_hm2 : m2.cleanedStart = O)
    (ht1 : m1.type = SegType.mustache) (_ht2 : m2.type = SegType.text) :
    mapCleanedToOriginal O (pre ++ m1 :: m2 :: rest) = m1.originalStart ∧
    mapCleanedRangeToOriginal s O (pre ++ m1 :: m2 :: rest) =
      (mapCleanedToOriginal s (pre ++ m1 :: m2 :: rest), m1.originalStart) := by
  have h := mapCleanedToOriginal_eq_of_first pre m1 (m2 :: rest) O hpre hm1s (le_of_eq hm1e.symm)
  rw [ht1] at h
  simp only [if_neg (by simp : ¬(SegType.mustache = SegType.text))] at h
  exact ⟨h, by rw [mapCleanedRangeToOriginal, h]⟩

/-- Witness for C9: with the mustache segment covering cleaned range 0 to
13 (original 0 to 5) followed by a text segment starting at 13, offset 13
maps to the mustache segment's original start 0, and the range (0, 13)
maps to (0, 0). -/
theorem c9_witness :
    mapCleanedToOriginal 13
        [⟨0, 5, 0, 13, SegType.mustache, "\"sampleValue\"".toList⟩,
         ⟨5, 6, 13, 14, SegType.text, []⟩] = 0 ∧
    mapCleanedRangeToOriginal 0 13
        [⟨0, 5, 0, 13, SegType.mustache, "\"sampleValue\"".toList⟩,
         ⟨5, 6, 13, 14, SegType.text, []⟩] =
      (mapCleanedToOriginal 0
        [⟨0, 5, 0, 13, SegType.mustache, "\"sampleValue\"".toList⟩,
         ⟨5, 6, 13, 14, SegType.text, []⟩], 0) :=
  c9_upper_bound_inclusive []
    ⟨0, 5, 0, 13, SegType.mustache, "\"sampleValue\"".toList⟩
    ⟨5, 6, 13, 14, SegType.text, []⟩ [] 13 0
    (by decide) (by decide) (by decide) (by decide) (by decide) (by decide)

/-! Characterisation of `lastIndexOf`. -/

lemma lastIndexOfAux_of_not_mem (c : Char) :
    ∀ (s : List Char) (i : Nat) (acc : Int), (∀ j, s.get? j ≠ some c) →
      lastIndexOfAux c s i acc = acc := by
  intro s
  induction s with
  | nil => intro i acc _; rfl
  | cons x xs ih =>
    intro i acc h
    have hx : ¬(x = c) := fun hxc => h 0 (by simp [hxc])
    simp only [lastIndexOfAux, if_neg hx]
    exact ih (i + 1) acc fun j => by simpa using h (j + 1)

lemma lastIndexOfAux_last (c : Char) :
    ∀ (s : List Char) (i : Nat) (acc : Int) (d : Nat), s.get? d = some c →
      (∀ j, d < j → s.get? j ≠ some c) →
      lastIndexOfAux c s i acc = (i : Int) + d := by
  intro s
  induction s with
  | nil => intro i acc d hd _; simp at hd
  | cons x xs ih =>
    intro i acc d hd hlast
    cases d with
    | zero =>
      have hx : x = c := by simpa using hd
      simp only [lastIndexOfAux, if_pos hx]
      have hnone : ∀ j, xs.get? j ≠ some c := fun j => by
        simpa using hlast (j + 1) (by omega)
      rw [lastIndexOfAux_of_not_mem c xs (i + 1) i hnone]
      simp
    | succ e =>
      have he : xs.get? e = some c := by simpa using hd
      have hlast' : ∀ j, e < j → xs.get? j ≠ some c := fun j hj => by
        simpa using hlast (j + 1) (by omega)
      simp only [lastIndexOfAux]
      rw [ih (i + 1) _ e he hlast']
      push_cast
      ring

lemma lastIndexOfAux_cases (c : Char) :
    ∀ (s : List Char) (i : Nat) (acc : Int),
      lastIndexOfAux c s i acc = acc ∨
        ∃ k, s.get? k = some c ∧ lastIndexOfAux c s i acc = (i : Int) + k := by
  intro s
  induction s with
  | nil => intro i acc; exact Or.inl rfl
  | cons x xs ih =>
    intro i acc
    by_cases hx : x = c
    · simp only [lastIndexOfAux, if_pos hx]
      rcases ih (i + 1) (i : Int) with h | ⟨k, hk, hres⟩
      · exact Or.inr ⟨0, by simp [hx], by rw [h]; simp⟩
      · exact Or.inr ⟨k + 1, by simpa using hk, by rw [hres]; push_cast; ring⟩
    · simp only [lastIndexOfAux, if_neg hx]
      rcases ih (i + 1) acc with h | ⟨k, hk, hres⟩
      · exact Or.inl h
      · exact Or.inr ⟨k + 1, by simpa using hk, by rw [hres]; push_cast; ring⟩

/-- JS `lastIndexOf` returns the index of the last occurrence. -/
lemma lastIndexOf_last {c : Char} {s : List Char} {d : Nat} (hd : s.get? d = some c)
    (hlast : ∀ j, d < j → s.get? j ≠ some c) : lastIndexOf c s = (d : Int) := by
  unfold lastIndexOf
  rw [lastIndexOfAux_last c s 0 (-1) d hd hlast]
  simp

/-- JS `lastIndexOf` returns -1 when the character does not occur. -/
lemma lastIndexOf_neg {c : Char} {s : List Char} (h : ∀ j, s.get? j ≠ some c) :
    lastIndexOf c s = -1 :=
  lastIndexOfAux_of_not_mem c s 0 (-1) h

/-- JS `lastIndexOf` is bounded by any index with no occurrence above it. -/
lemma lastIndexOf_le {c : Char} {s : List Char} {d : Nat}
    (h : ∀ j, d < j → s.get? j ≠ some c) : lastIndexOf c s ≤ (d : Int) := by
  unfold lastIndexOf
  rcases lastIndexOfAux_cases c s 0 (-1) with hc | ⟨k, hk, hres⟩
  · rw [hc]
    omega
  · rw [hres]
    by_cases hkd : k ≤ d
    · push_cast
      omega
    · exact absurd hk (h k (by omega))

/-- C5, counterexample: the claim's qualifier "unescaped" does not hold of
the code.  In the five-character context colon-quote-a-backslash-colon the
only delimiters are the colons at indices 0 and 4; index 4 is escaped
(preceded by a backslash) while index 0 is not, and one quote (an odd
count) follows index 0 — so the claim predicts the unquoted literal.  The
code's `lastIndexOf` ignores escaping, picks index 4 with zero quotes
after it, and returns the quoted literal. -/
theorem c5_counterexample :
    ((([':', '"', 'a', '\\', ':'] : List Char).get? 0 = some ':') ∧
     (([':', '"', 'a', '\\', ':'] : List Char).get? 3 = some '\\') ∧
     (([':', '"', 'a', '\\', ':'] : List Char).get? 4 = some ':') ∧
     (∀ j, j < 5 →
       ((([':', '"', 'a', '\\', ':'] : List Char).get? j = some ':' ∨
         ([':', '"', 'a', '\\', ':'] : List Char).get? j = some '[') → j = 0 ∨ j = 4)) ∧
     ((([':', '"', 'a', '\\', ':'] : List Char).drop 1).count '"') % 2 = 1) ∧
    generateSampleValue ['x'] [':', '"', 'a', '\\', ':'] ≠ "sampleValue".toList := by
  decide

/-- C5 (amended, dropping "unescaped"): for a value placeholder (trimmed
expression starting with no sigil), the replacement is chosen from the
200-character window w preceding the placeholder: if some index d of w
holds a colon or an opening bracket and no later index does (i.e. d is the
later of the two `lastIndexOf` results), the replacement is the unquoted
literal when the number of quote characters after d is odd and the quoted
literal when it is even; when no colon or bracket occurs in w at all, the
replacement defaults to the quoted literal. -/
theorem c5_value_heuristic (mustacheExpr context w : List Char)
    (hw : w = context.drop (context.length - 200))
    (hns : (trimChars mustacheExpr).head? ≠ some '#' ∧
           (trimChars mustacheExpr).head? ≠ some '^' ∧
           (trimChars mustacheExpr).head? ≠ some '/' ∧
           (trimChars mustacheExpr).head? ≠ some '!' ∧
           (trimChars mustacheExpr).head? ≠ some '>') :
    (∀ d : Nat, (w.get? d = some ':' ∨ w.get? d = some '[') →
      (∀ j, d < j → ¬(w.get? j = some ':' ∨ w.get? j = some '[')) →
      generateSampleValue mustacheExpr context =
        if (w.drop (d + 1)).count '"' % 2 = 1 then "sampleValue".toList
        else "\"sampleValue\"".toList) ∧
    ((∀ j : Nat, ¬(w.get? j = some ':' ∨ w.get? j = some '[')) →
      generateSampleValue mustacheExpr context = "\"sampleValue\"".toList) := by
  obtain ⟨h1, h2, h3, h4, h5⟩ := hns
  have hunfold : generateSampleValue mustacheExpr context =
      (if 0 ≤ max (lastIndexOf ':' w) (lastIndexOf '[' w) then
        (if (w.drop ((max (lastIndexOf ':' w) (lastIndexOf '[' w)).toNat + 1)).count '"' % 2 = 1
         then "sampleValue".toList else "\"sampleValue\"".toList)
       else "\"sampleValue\"".toList) := by
    subst hw
    simp only [generateSampleValue]
    rw [if_neg (by rintro (h | h); exacts [h1 h, h2 h])]
    rw [if_neg h3, if_neg h4, if_neg h5]
  constructor
  · intro d hd hlast
    rcases hd with hd | hd
    · have hlc : lastIndexOf ':' w = (d : Int) :=
        lastIndexOf_last hd fun j hj hcj => hlast j hj (Or.inl hcj)
      have hlb : lastIndexOf '[' w ≤ (d : Int) :=
        lastIndexOf_le fun j hj hbj => hlast j hj (Or.inr hbj)
      have hmax : max (lastIndexOf ':' w) (lastIndexOf '[' w) = (d : Int) := by
        rw [hlc]
        omega
      rw [hunfold, hmax, if_pos (by omega)]
      norm_num
    · have hlb : lastIndexOf '[' w = (d : Int) :=
        lastIndexOf_last hd fun j hj hbj => hlast j hj (Or.inr hbj)
      have hlc : lastIndexOf ':' w ≤ (d : Int) :=
        lastIndexOf_le fun j hj hcj => hlast j hj (Or.inl hcj)
      have hmax : max (lastIndexOf ':' w) (lastIndexOf '[' w) = (d : Int) := by
        rw [hlb]
        omega
      rw [hunfold, hmax, if_pos (by omega)]
      norm_num
  · intro hnone
    have hlc : lastIndexOf ':' w = -1 := lastIndexOf_neg fun j hcj => hnone j (Or.inl hcj)
    have hlb : lastIndexOf '[' w = -1 := lastIndexOf_neg fun j hbj => hnone j (Or.inr hbj)
    rw [hunfold, hlc, hlb]
    norm_num

/-- Witness for C5: in the six-character context open-brace quote a quote
colon space, the most recent delimiter is the colon at index 4, with zero
(an even count of) quotes after it, so the placeholder is replaced by the
quoted literal. -/
theorem c5_witness :
    generateSampleValue ['x'] ['{', '"', 'a', '"', ':', ' '] = "\"sampleValue\"".toList := by
  have hlast : ∀ j, 4 < j →
      ¬((['{', '"', 'a', '"', ':', ' '] : List Char).get? j = some ':' ∨
        (['{', '"', 'a', '"', ':', ' '] : List Char).get? j = some '[') := by
    intro j hj h
    have hj6 : j < 6 := by
      by_contra hge
      have hnone : (['{', '"', 'a', '"', ':', ' '] : List Char).get? j = none :=
        List.get?_eq_none.mpr (by simp; omega)
      rcases h with h | h
      · rw [hnone] at h
        exact Option.noConfusion h
      · rw [hnone] at h
        exact Option.noConfusion h
    interval_cases j
    exact absurd h (by decide)
  have h := (c5_value_heuristic ['x'] ['{', '"', 'a', '"', ':', ' ']
      ['{', '"', 'a', '"', ':', ' '] (by decide)
      ⟨by decide, by decide, by decide, by decide, by decide⟩).1 4
      (Or.inl (by decide)) hlast
  rw [h]
  decide

/-- The three-disjunct overlap test used by the filter is, for nonempty
node and segment ranges, exactly nonempty intersection of the half-open
intervals. -/
lemma overlap_test_iff {ns ne cs ce : Nat} (hn : ns < ne) (hc : cs < ce) :
    ((ns ≥ cs ∧ ns < ce) ∨ (ne > cs ∧ ne ≤ ce) ∨ (cs ≥ ns ∧ cs < ne)) ↔
      (ns < ce ∧ cs < ne) := by
  omega

/-- The per-error any-test of the filter holds iff some mustache mapping
with nonempty replacement overlaps the node's half-open byte range. -/
lemma wasMustache_iff (text : List Char) (off len : Nat) (hlen : 0 < len) :
    ((processMustacheTemplate text).mappings.any fun m =>
        if m.type ≠ SegType.mustache ∨ m.replacement = [] then false
        else
          decide ((off ≥ m.cleanedStart ∧ off < m.cleanedEnd) ∨
                  (off + len > m.cleanedStart ∧ off + len ≤ m.cleanedEnd) ∨
                  (m.cleanedStart ≥ off ∧ m.cleanedStart < off + len))) = true ↔
      ∃ m ∈ (processMustacheTemplate text).mappings,
        m.type = SegType.mustache ∧ m.replacement ≠ [] ∧
        off < m.cleanedEnd ∧ m.cleanedStart < off + len := by
  rw [List.any_eq_true]
  constructor
  · rintro ⟨m, hm, hmp⟩
    by_cases ht : m.type ≠ SegType.mustache ∨ m.replacement = []
    · rw [if_pos ht] at hmp
      exact absurd hmp (by simp)
    · rw [if_neg ht] at hmp
      push_neg at ht
      obtain ⟨ht1', ht2⟩ := ht
      have hm' : m ∈ (processLoop text (text.length + 1) 0 0).2.1 := hm
      have hinv := (processLoop_mem text (text.length + 1) 0 0 m hm').1 ht1'
      have hcs : m.cleanedStart < m.cleanedEnd := by
        have hrlen : m.replacement.length ≠ 0 := by
          intro h0
          exact ht2 (List.length_eq_zero.mp h0)
        omega
      have hov := of_decide_eq_true hmp
      rw [overlap_test_iff (by omega) hcs] at hov
      exact ⟨m, hm, ht1', ht2, hov⟩
  · rintro ⟨m, hm, ht1, ht2, hov⟩
    refine ⟨m, hm, ?_⟩
    rw [if_neg (by push_neg; exact ⟨ht1, ht2⟩)]
    have hm' : m ∈ (processLoop text (text.length + 1) 0 0).2.1 := hm
    have hinv := (processLoop_mem text (text.length + 1) 0 0 m hm').1 ht1
    have hcs : m.cleanedStart < m.cleanedEnd := by
      have hrlen : m.replacement.length ≠ 0 := by
        intro h0
        exact ht2 (List.length_eq_zero.mp h0)
      omega
    rw [decide_eq_true_eq, overlap_test_iff (by omega) hcs]
    exact hov

/-- C6: with placeholders present, the filter drops an error whose path
resolves to a (nonempty) node exactly when the node's byte range overlaps
some placeholder segment with non-empty replacement text and the keyword
is one of type, format, enum, const, pattern; in particular an error with
such a keyword whose node overlaps no placeholder segment — a field whose
original text was a literal — is never dropped by this rule. -/
theorem c6_filter_drops_exactly (text : List Char)
    (resolve : AjvError → Option (Nat × Nat)) (errors : List AjvError) (err : AjvError)
    (hmem : err ∈ errors) (hkw : err.keyword ≠ "if")
    (hhm : (processMustacheTemplate text).hasMustache = true)
    (off len : Nat) (hres : resolve err = some (off, len)) (hlen : 0 < len) :
    err ∈ errors.filter (keepsError resolve (some (processMustacheTemplate text))) ↔
      ¬(err.keyword ∈ ["type", "format", "enum", "const", "pattern"] ∧
        ∃ m ∈ (processMustacheTemplate text).mappings,
          m.type = SegType.mustache ∧ m.replacement ≠ [] ∧
          off < m.cleanedEnd ∧ m.cleanedStart < off + len) := by
  rw [List.mem_filter]
  have hkeep : keepsError resolve (some (processMustacheTemplate text)) err =
      (if ((processMustacheTemplate text).mappings.any fun m =>
            if m.type ≠ SegType.mustache ∨ m.replacement = [] then false
            else
              decide ((off ≥ m.cleanedStart ∧ off < m.cleanedEnd) ∨
                      (off + len > m.cleanedStart ∧ off + len ≤ m.cleanedEnd) ∨
                      (m.cleanedStart ≥ off ∧ m.cleanedStart < off + len)))
       then (if err.keyword ∈ ["type", "format", "enum", "const", "pattern"]
             then false else true)
       else true) := by
    simp only [keepsError, if_neg hkw, hhm, hres, if_true]
  rw [hkeep]
  constructor
  · rintro ⟨_, hcond⟩ ⟨hkwmem, hE⟩
    rw [if_pos ((wasMustache_iff text off len hlen).mpr hE), if_pos hkwmem] at hcond
    exact Bool.noConfusion hcond
  · intro hnot
    refine ⟨hmem, ?_⟩
    by_cases hA : ((processMustacheTemplate text).mappings.any fun m =>
        if m.type ≠ SegType.mustache ∨ m.replacement = [] then false
        else
          decide ((off ≥ m.cleanedStart ∧ off < m.cleanedEnd) ∨
                  (off + len > m.cleanedStart ∧ off + len ≤ m.cleanedEnd) ∨
                  (m.cleanedStart ≥ off ∧ m.cleanedStart < off + len))) = true
    · rw [if_pos hA]
      by_cases hkwmem : err.keyword ∈ ["type", "format", "enum", "const", "pattern"]
      · exact absurd ⟨hkwmem, (wasMustache_iff text off len hlen).mp hA⟩ hnot
      · rw [if_neg hkwmem]
    · rw [if_neg hA]

/-- Witness for C6: on the bare placeholder input (cleaned to the quoted
sample value), a type error resolving to the node spanning the whole
replacement is dropped by the filter, exactly as the overlap condition
requires. -/
theorem c6_witness :
    (⟨"type", "/a", "#/properties/a/type", "must be number",
        none, none, none⟩ : AjvError) ∈
      ([⟨"type", "/a", "#/properties/a/type", "must be number",
          none, none, none⟩] : List AjvError).filter
        (keepsError (fun _ => some (0, 13))
          (some (processMustacheTemplate ['{', '{', 'x', '}', '}']))) ↔
      ¬((⟨"type", "/a", "#/properties/a/type", "must be number",
            none, none, none⟩ : AjvError).keyword
          ∈ ["type", "format", "enum", "const", "pattern"] ∧
        ∃ m ∈ (processMustacheTemplate ['{', '{', 'x', '}', '}']).mappings,
          m.type = SegType.mustache ∧ m.replacement ≠ [] ∧
          0 < m.cleanedEnd ∧ m.cleanedStart < 0 + 13) :=
  c6_filter_drops_exactly ['{', '{', 'x', '}', '}'] (fun _ => some (0, 13))
    [⟨"type", "/a", "#/properties/a/type", "must be number", none, none, none⟩]
    ⟨"type", "/a", "#/properties/a/type", "must be number", none, none, none⟩
    (by simp) (by decide) (by decide) 0 13 rfl (by decide)

/-- C7: every diagnostic built from an error with keyword
`additionalProperties` carries severity warning, and every diagnostic
built from an error with any other keyword carries severity error — the
severity variable is initialised to error and reassigned only in the
`additionalProperties` branch of the message chain. -/
theorem c7_severity (compName : Option String) (err : AjvError) :
    (buildDiagMsgSeverity compName err).2 =
      if err.keyword = "additionalProperties" then DiagnosticSeverity.warning
      else DiagnosticSeverity.error := by
  simp only [buildDiagMsgSeverity]
  split_ifs <;> first
    | rfl
    | (rename_i hvs; cases hav : err.allowedValues with
        | none => rfl
        | some vs => simp only [hav]; split_ifs <;> rfl)

end JSV
